import Mathlib

/-!
Shallow embedding of `objcache` (package `objcache`, file `src/objcache/objcache.go`):
a read-through cache layer with named groups, a get-or-load protocol,
hit/miss/eviction accounting and disposal of evicted values.

Conventions of the embedding:
* Go's `Value` interface (`Dispose() error`) is modelled as a concrete record
  carrying an identity and the outcome its `Dispose` call would report.
* The stateful code is modelled by explicit state passing; `int64` counters
  become `Nat` (they are only ever incremented, so overflow plays no role in
  the modelled claims).
* A Go `panic` (fatal programmer error) is modelled as `Option.none`.
* Dispose invocations performed by the eviction hook are recorded in an
  observable trace (`cache.disposed`) so that "Dispose is invoked exactly
  once per evicted entry" is a statement about the model.
* The bounded LRU store `github.com/qiniu/x/objcache/lru` is used by the
  source but its code is not part of `src/`; it is modelled from the spec
  (see `LruCache`).
-/

namespace Objcache

/-- A `Value` (Go interface `Value`): a cacheable payload whose `Dispose`
releases its resources and reports failure. `id` identifies the payload,
`disposeErr` is the outcome `Dispose` reports (`none` = success). -/
structure Value where
  id : Nat
  disposeErr : Option String
deriving DecidableEq, Repr

/-- `Value.Dispose`: releases the value's resources, reporting the outcome. -/
def Value.Dispose (v : Value) : Option String := v.disposeErr

/-- A `Getter` (Go interface `Getter`): loads data for a key, or fails. -/
abbrev Getter := String → Except String Value

/-- Looks a key up in an association list of entries (first match wins). -/
def lookupKey (key : String) : List (String × Value) → Option Value
  | [] => none
  | (k, v) :: es => if k = key then some v else lookupKey key es

/-- Removes every entry carrying the given key. -/
def removeKey (key : String) : List (String × Value) → List (String × Value)
  | [] => []
  | (k, v) :: es => if k = key then removeKey key es else (k, v) :: removeKey key es

/-- The last element of a list, if any (the oldest entry of the store). -/
def lastEntry {α : Type} : List α → Option α
  | [] => none
  | [e] => some e
  | _ :: e :: es => lastEntry (e :: es)

/-- A list without its last element (the store after dropping its oldest entry). -/
def dropLastE {α : Type} : List α → List α
  | [] => []
  | [_] => []
  | e :: f :: es => e :: dropLastE (f :: es)

/-- Modelled from the spec: the Bounded Cache external collaborator
(`github.com/qiniu/x/objcache/lru`, whose code is not under `src/`).
The spec fixes only its capability contract — fixed capacity `maxEntries`,
insert, lookup, current size, and a synchronous eviction notification fired
whenever an entry is removed by policy (capacity pressure or overwrite) —
and leaves the removal policy to the collaborator. This model keeps the
entries newest-first and removes the oldest entry under capacity pressure;
a `maxEntries` of zero places no bound. -/
structure LruCache where
  maxEntries : Nat
  entries : List (String × Value)
deriving DecidableEq, Repr

/-- Modelled from the spec: `new(capacity)` constructs an empty store. -/
def LruCache.new (maxEntries : Nat) : LruCache := ⟨maxEntries, []⟩

/-- Modelled from the spec: `len()` is the current resident entry count. -/
def LruCache.Len (c : LruCache) : Nat := c.entries.length

/-- Modelled from the spec: `get(key)` returns the entry for the key, if
resident. -/
def LruCache.getE (c : LruCache) (key : String) : Option Value :=
  lookupKey key c.entries

/-- Modelled from the spec: `add(key, value)` inserts an entry; it returns the
new store together with the entries removed by policy (an overwrite displaces
the old value; exceeding capacity removes the oldest entry), on which the
caller's eviction hook is invoked synchronously. -/
def LruCache.addE (c : LruCache) (key : String) (v : Value) :
    LruCache × List (String × Value) :=
  match lookupKey key c.entries with
  | some old =>
      ({ c with entries := (key, v) :: removeKey key c.entries }, [(key, old)])
  | none =>
      if c.maxEntries ≠ 0 ∧ c.entries.length + 1 > c.maxEntries then
        ({ c with entries := dropLastE ((key, v) :: c.entries) },
         (lastEntry ((key, v) :: c.entries)).toList)
      else
        ({ c with entries := (key, v) :: c.entries }, [])

/-- `CacheStats` (Go struct `CacheStats`): a point-in-time snapshot. -/
structure CacheStats where
  Items : Nat
  Gets : Nat
  Hits : Nat
  Evictions : Nat
deriving DecidableEq, Repr

/-- The Cache Wrapper (Go struct `cache`): wraps the bounded store and owns
the lock-protected counters. `disposed` is the observable trace of the
eviction hook's Dispose invocations (key and value of each evicted entry),
recorded so that disposal claims can be stated about the model. -/
structure cache where
  lru : LruCache
  nhit : Nat
  nget : Nat
  nevict : Nat
  disposed : List (String × Value)
deriving DecidableEq, Repr

/-- The eviction hook installed by `cache.init`, applied to the entries the
bounded store just removed: each one has `Dispose` invoked (its outcome is
discarded, as in the source) and increments `nevict`. -/
def cache.onEvicted (c : cache) : List (String × Value) → cache
  | [] => c
  | (k, v) :: ev =>
      cache.onEvicted
        { c with nevict := c.nevict + 1, disposed := c.disposed ++ [(k, v)] } ev

/-- `cache.init`: constructs the bounded store with the given capacity and
installs the eviction hook. -/
def cache.init (cacheNum : Nat) : cache :=
  { lru := LruCache.new cacheNum, nhit := 0, nget := 0, nevict := 0, disposed := [] }

/-- `cache.add`: inserts into the bounded store; the eviction hook runs
synchronously on whatever the store removed. -/
def cache.add (c : cache) (key : String) (v : Value) : cache :=
  cache.onEvicted { c with lru := (LruCache.addE c.lru key v).1 }
    (LruCache.addE c.lru key v).2

/-- `cache.get`: increments `nget`, performs the lookup, and on a hit
increments `nhit` and returns the cached value. -/
def cache.get (c : cache) (key : String) : Option Value × cache :=
  match LruCache.getE c.lru key with
  | some v => (some v, { c with nget := c.nget + 1, nhit := c.nhit + 1 })
  | none => (none, { c with nget := c.nget + 1 })

/-- `cache.itemsLocked`: current resident entry count. -/
def cache.itemsLocked (c : cache) : Nat := c.lru.Len

/-- `cache.items`: current resident entry count (lock-protected in the source). -/
def cache.items (c : cache) : Nat := c.itemsLocked

/-- `cache.stats`: a consistent snapshot of the wrapper's counters. -/
def cache.stats (c : cache) : CacheStats :=
  { Items := c.itemsLocked, Gets := c.nget, Hits := c.nhit, Evictions := c.nevict }

/-- `Stats` (Go struct `Stats`): the group-level counters. In the source they
are `AtomicInt`s; in this sequential embedding the atomic `Add` collapses to
a pure increment. -/
structure Stats where
  Gets : Nat
  CacheHits : Nat
deriving DecidableEq, Repr

/-- A `Group` (Go struct `Group`): a named cache namespace pairing a getter
with a Cache Wrapper and the group-level `Stats`. -/
structure Group where
  name : String
  getter : Getter
  mainCache : cache
  Stats : Stats

/-- `Group.Name`: the immutable group name. -/
def Group.Name (g : Group) : String := g.name

/-- `Group.CacheStats`: stats about the group's cache. -/
def Group.CacheStats (g : Group) : CacheStats := g.mainCache.stats

/-- The outcome of one `Group.Get` call: the returned value-or-error, the
group state afterwards, and how many times the getter was invoked during
the call (an observable, so that fast-path claims can be stated). -/
structure GetResult where
  val : Except String Value
  g : Group
  getterCalls : Nat

/-- `Group.Get`: the get-or-load protocol. Increments `Stats.Gets`, tries the
cache (on a hit, increments `Stats.CacheHits` and returns the cached value
without invoking the getter); on a miss invokes the getter, and on success
inserts the loaded value; a getter error is propagated and nothing is
inserted. -/
def Group.Get (g : Group) (key : String) : GetResult :=
  match cache.get g.mainCache key with
  | (some v, mc) =>
      { val := Except.ok v,
        g := { g with
                 mainCache := mc,
                 Stats := ⟨g.Stats.Gets + 1, g.Stats.CacheHits + 1⟩ },
        getterCalls := 0 }
  | (none, mc) =>
      match g.getter key with
      | Except.ok v =>
          { val := Except.ok v,
            g := { g with
                     mainCache := cache.add mc key v,
                     Stats := ⟨g.Stats.Gets + 1, g.Stats.CacheHits⟩ },
            getterCalls := 1 }
      | Except.error e =>
          { val := Except.error e,
            g := { g with
                     mainCache := mc,
                     Stats := ⟨g.Stats.Gets + 1, g.Stats.CacheHits⟩ },
            getterCalls := 1 }

/-- Runs a sequence of `Group.Get` calls, threading the group state. -/
def Group.runGets (g : Group) (keys : List String) : Group :=
  keys.foldl (fun g k => (g.Get k).g) g

/-- An operation on the Cache Wrapper, for stating invariants over arbitrary
operation sequences. -/
inductive COp where
  | add (key : String) (v : Value)
  | get (key : String)
deriving DecidableEq, Repr

/-- Runs a sequence of Cache Wrapper operations. -/
def cache.runOps (c : cache) : List COp → cache
  | [] => c
  | COp.add k v :: ops => cache.runOps (c.add k v) ops
  | COp.get k :: ops => cache.runOps (c.get k).2 ops

/-- Inserts a list of key/value pairs in order via `cache.add`. -/
def cache.insertAll (c : cache) (kvs : List (String × Value)) : cache :=
  kvs.foldl (fun c kv => c.add kv.1 kv.2) c

/-- The process-wide registry state: the `groups` map and whether the
`newGroupHook` has been installed. The hook body itself is user-supplied;
the model records its invocations as observable events. -/
structure RegistryState where
  groups : List (String × Group)
  hookInstalled : Bool

/-- Looks a group up by name in the registry's map. -/
def lookupGroup (name : String) : List (String × Group) → Option Group
  | [] => none
  | (n, g) :: gs => if n = name then some g else lookupGroup name gs

/-- `GetGroup`: returns the named group previously created with `NewGroup`,
or `none` (Go: `nil`) if there is no such group. -/
def GetGroup (s : RegistryState) (name : String) : Option Group :=
  lookupGroup name s.groups

/-- `RegisterNewGroupHook`: installs the creation hook; a second installation
is a fatal programmer error (Go: `panic`, modelled as `none`). -/
def RegisterNewGroupHook (s : RegistryState) : Option RegistryState :=
  if s.hookInstalled then none else some { s with hookInstalled := true }

/-- A record of one invocation of the creation hook: the group it was handed
and the registry's `groups` map at the moment of the call. -/
structure HookCall where
  g : Group
  registryAtCall : List (String × Group)

/-- `NewGroup`: creates a group. A duplicate name is a fatal programmer error
(Go: `panic`, modelled as `none`). Otherwise the group is allocated with a
fresh cache of the given capacity, the creation hook — when installed — is
invoked synchronously with the new group, and only then is the group
registered under its name (the source stores `groups[name] = g` after the
hook call). The returned list records the hook invocations made during the
call. -/
def NewGroup (s : RegistryState) (name : String) (cacheNum : Nat)
    (getter : Getter) : Option (Group × RegistryState × List HookCall) :=
  if (lookupGroup name s.groups).isSome then none
  else
    let g : Group :=
      { name := name, getter := getter, mainCache := cache.init cacheNum,
        Stats := ⟨0, 0⟩ }
    some (g,
      { s with groups := (name, g) :: s.groups },
      if s.hookInstalled then [⟨g, s.groups⟩] else [])

/-! ### Concrete inputs used by the witnesses -/

/-- A getter that always fails with "not found". -/
def getterNotFound : Getter := fun _ => Except.error "not found"

/-- A getter that always succeeds with value 7. -/
def getterSeven : Getter := fun _ => Except.ok ⟨7, none⟩

/-- A getter returning value 0, used by the registry examples. -/
def getterZero : Getter := fun _ => Except.ok ⟨0, none⟩

/-- A fresh group with a failing getter and an empty cache of capacity 2. -/
def gErr : Group := ⟨"gerr", getterNotFound, cache.init 2, ⟨0, 0⟩⟩

/-- A fresh group with a succeeding getter and an empty cache of capacity 2. -/
def gMiss : Group := ⟨"gmiss", getterSeven, cache.init 2, ⟨0, 0⟩⟩

/-- A group whose cache holds the key "k" with value 5. -/
def gHit : Group := ⟨"ghit", getterSeven, ⟨⟨2, [("k", ⟨5, none⟩)]⟩, 0, 1, 0, []⟩, ⟨1, 0⟩⟩

/-- A concrete operation sequence used by the C1 witness. -/
def ops0 : List COp :=
  [COp.add "a" ⟨1, some "boom"⟩, COp.add "b" ⟨2, none⟩,
   COp.add "c" ⟨3, none⟩, COp.get "b", COp.get "z"]

/-- Concrete distinct-key insertions used by the C1 witness. -/
def kvs0 : List (String × Value) := [("a", ⟨1, none⟩), ("b", ⟨2, none⟩), ("c", ⟨3, none⟩)]

/-- A capacity-1 cache holding a value whose Dispose fails. -/
def cBoom : cache := ⟨⟨1, [("a", ⟨1, some "boom"⟩)]⟩, 0, 0, 0, []⟩

/-- A capacity-1 cache holding the same key with a value whose Dispose succeeds. -/
def cFine : cache := ⟨⟨1, [("a", ⟨1, none⟩)]⟩, 0, 0, 0, []⟩

/-! ### Basic lemmas about the eviction hook and the wrapper operations -/

theorem onEvicted_nget : ∀ (ev : List (String × Value)) (c : cache),
    (cache.onEvicted c ev).nget = c.nget
  | [], _ => rfl
  | (k, v) :: ev, c => by
      simpa [cache.onEvicted] using onEvicted_nget ev _

theorem onEvicted_nhit : ∀ (ev : List (String × Value)) (c : cache),
    (cache.onEvicted c ev).nhit = c.nhit
  | [], _ => rfl
  | (k, v) :: ev, c => by
      simpa [cache.onEvicted] using onEvicted_nhit ev _

theorem onEvicted_lru : ∀ (ev : List (String × Value)) (c : cache),
    (cache.onEvicted c ev).lru = c.lru
  | [], _ => rfl
  | (k, v) :: ev, c => by
      simpa [cache.onEvicted] using onEvicted_lru ev _

theorem onEvicted_nevict : ∀ (ev : List (String × Value)) (c : cache),
    (cache.onEvicted c ev).nevict = c.nevict + ev.length
  | [], _ => by simp [cache.onEvicted]
  | (k, v) :: ev, c => by
      have ih := onEvicted_nevict ev
        { c with nevict := c.nevict + 1, disposed := c.disposed ++ [(k, v)] }
      simp [cache.onEvicted] at ih ⊢
      omega

theorem onEvicted_disposed : ∀ (ev : List (String × Value)) (c : cache),
    (cache.onEvicted c ev).disposed = c.disposed ++ ev
  | [], _ => by simp [cache.onEvicted]
  | (k, v) :: ev, c => by
      have ih := onEvicted_disposed ev
        { c with nevict := c.nevict + 1, disposed := c.disposed ++ [(k, v)] }
      simp [cache.onEvicted] at ih ⊢
      simp [ih]

theorem add_nget (c : cache) (k : String) (v : Value) :
    (cache.add c k v).nget = c.nget := by
  simp [cache.add, onEvicted_nget]

theorem add_nhit (c : cache) (k : String) (v : Value) :
    (cache.add c k v).nhit = c.nhit := by
  simp [cache.add, onEvicted_nhit]

theorem add_lru (c : cache) (k : String) (v : Value) :
    (cache.add c k v).lru = (LruCache.addE c.lru k v).1 := by
  simp [cache.add, onEvicted_lru]

theorem add_nevict (c : cache) (k : String) (v : Value) :
    (cache.add c k v).nevict = c.nevict + ((LruCache.addE c.lru k v).2).length := by
  simp [cache.add, onEvicted_nevict]

theorem add_disposed (c : cache) (k : String) (v : Value) :
    (cache.add c k v).disposed = c.disposed ++ (LruCache.addE c.lru k v).2 := by
  simp [cache.add, onEvicted_disposed]

/-! ### The three paths of `Group.Get` -/

theorem Get_hit_eq (g : Group) (key : String) (v : Value)
    (h : g.mainCache.lru.getE key = some v) :
    g.Get key =
      ⟨Except.ok v,
       { g with
           mainCache :=
             ⟨g.mainCache.lru, g.mainCache.nhit + 1, g.mainCache.nget + 1,
              g.mainCache.nevict, g.mainCache.disposed⟩,
           Stats := ⟨g.Stats.Gets + 1, g.Stats.CacheHits + 1⟩ },
       0⟩ := by
  unfold Group.Get cache.get
  rw [h]

theorem Get_missOk_eq (g : Group) (key : String) (v : Value)
    (h : g.mainCache.lru.getE key = none) (hg : g.getter key = Except.ok v) :
    g.Get key =
      ⟨Except.ok v,
       { g with
           mainCache :=
             cache.add
               ⟨g.mainCache.lru, g.mainCache.nhit, g.mainCache.nget + 1,
                g.mainCache.nevict, g.mainCache.disposed⟩ key v,
           Stats := ⟨g.Stats.Gets + 1, g.Stats.CacheHits⟩ },
       1⟩ := by
  unfold Group.Get cache.get
  rw [h, hg]

theorem Get_missErr_eq (g : Group) (key : String) (e : String)
    (h : g.mainCache.lru.getE key = none) (hg : g.getter key = Except.error e) :
    g.Get key =
      ⟨Except.error e,
       { g with
           mainCache :=
             ⟨g.mainCache.lru, g.mainCache.nhit, g.mainCache.nget + 1,
              g.mainCache.nevict, g.mainCache.disposed⟩,
           Stats := ⟨g.Stats.Gets + 1, g.Stats.CacheHits⟩ },
       1⟩ := by
  unfold Group.Get cache.get
  rw [h, hg]

theorem getE_addE_self (c : LruCache) (k : String) (v : Value)
    (h : c.getE k = none) : ((c.addE k v).1).getE k = some v := by
  have h' : lookupKey k c.entries = none := h
  unfold LruCache.addE
  rw [h']
  by_cases hc : c.maxEntries ≠ 0 ∧ c.entries.length + 1 > c.maxEntries
  · rw [if_pos hc]
    obtain ⟨h1, h2⟩ := hc
    cases hes : c.entries with
    | nil => rw [hes] at h2; simp at h2; omega
    | cons e es => simp [LruCache.getE, dropLastE, lookupKey]
  · rw [if_neg hc]
    simp [LruCache.getE, lookupKey]

/-! ### Claim theorems: the three `Group.Get` paths -/

/-- C2: when the cache has no entry for the key and the getter fails,
`Group.Get` returns the getter's error verbatim, inserts nothing (no entry
for the key exists afterwards and the resident entries, eviction counter and
disposal trace are unchanged), increments the gets counters and leaves the
hits counters unchanged. -/
theorem Group.Get_load_failure (g : Group) (k e : String)
    (h : g.mainCache.lru.getE k = none) (hg : g.getter k = Except.error e) :
    (g.Get k).val = Except.error e ∧
    (g.Get k).g.mainCache.lru.entries = g.mainCache.lru.entries ∧
    (g.Get k).g.mainCache.lru.getE k = none ∧
    (g.Get k).g.mainCache.nget = g.mainCache.nget + 1 ∧
    (g.Get k).g.mainCache.nhit = g.mainCache.nhit ∧
    (g.Get k).g.mainCache.nevict = g.mainCache.nevict ∧
    (g.Get k).g.mainCache.disposed = g.mainCache.disposed ∧
    (g.Get k).g.Stats.Gets = g.Stats.Gets + 1 ∧
    (g.Get k).g.Stats.CacheHits = g.Stats.CacheHits := by
  rw [Get_missErr_eq g k e h hg]
  exact ⟨rfl, rfl, h, rfl, rfl, rfl, rfl, rfl, rfl⟩

/-- C3: when the cache has no entry for the key and the getter succeeds,
`Group.Get` invokes the getter exactly once, inserts the returned value into
the cache under the key, and returns that value with no error. -/
theorem Group.Get_load_success (g : Group) (k : String) (v : Value)
    (h : g.mainCache.lru.getE k = none) (hg : g.getter k = Except.ok v) :
    (g.Get k).val = Except.ok v ∧
    (g.Get k).getterCalls = 1 ∧
    (g.Get k).g.mainCache.lru.getE k = some v := by
  rw [Get_missOk_eq g k v h hg]
  refine ⟨rfl, rfl, ?_⟩
  show (cache.add _ k v).lru.getE k = some v
  rw [add_lru]
  exact getE_addE_self _ k v h

/-- C4: when the key is resident (inserted and not yet evicted), `Group.Get`
returns the cached value with no error, increments both hit counters, and
does not invoke the getter (cache-hit fast path). -/
theorem Group.Get_cache_hit (g : Group) (k : String) (v : Value)
    (h : g.mainCache.lru.getE k = some v) :
    (g.Get k).val = Except.ok v ∧
    (g.Get k).getterCalls = 0 ∧
    (g.Get k).g.mainCache.nhit = g.mainCache.nhit + 1 ∧
    (g.Get k).g.Stats.CacheHits = g.Stats.CacheHits + 1 := by
  rw [Get_hit_eq g k v h]
  exact ⟨rfl, rfl, rfl, rfl⟩

/-- C10: a `Group.Get` that hits changes nothing but the counters: the
bounded store (resident entries and their values), the eviction counter, the
disposal trace, the item count, the group name and the getter are all
unchanged, and no Dispose is invoked. -/
theorem Group.Get_hit_frame (g : Group) (k : String) (v : Value)
    (h : g.mainCache.lru.getE k = some v) :
    (g.Get k).g.mainCache.lru = g.mainCache.lru ∧
    (g.Get k).g.mainCache.nevict = g.mainCache.nevict ∧
    (g.Get k).g.mainCache.disposed = g.mainCache.disposed ∧
    (g.Get k).g.mainCache.items = g.mainCache.items ∧
    (g.Get k).g.name = g.name ∧
    (g.Get k).g.getter = g.getter := by
  rw [Get_hit_eq g k v h]
  exact ⟨rfl, rfl, rfl, rfl, rfl, rfl⟩

/-- Witness for C2 at a concrete input. -/
theorem Group.Get_load_failure_witness :
    (gErr.mainCache.lru.getE "x" = none ∧ gErr.getter "x" = Except.error "not found") ∧
    ((gErr.Get "x").val = Except.error "not found" ∧
     (gErr.Get "x").g.mainCache.lru.entries = gErr.mainCache.lru.entries ∧
     (gErr.Get "x").g.mainCache.lru.getE "x" = none ∧
     (gErr.Get "x").g.mainCache.nget = gErr.mainCache.nget + 1 ∧
     (gErr.Get "x").g.mainCache.nhit = gErr.mainCache.nhit ∧
     (gErr.Get "x").g.mainCache.nevict = gErr.mainCache.nevict ∧
     (gErr.Get "x").g.mainCache.disposed = gErr.mainCache.disposed ∧
     (gErr.Get "x").g.Stats.Gets = gErr.Stats.Gets + 1 ∧
     (gErr.Get "x").g.Stats.CacheHits = gErr.Stats.CacheHits) :=
  ⟨⟨rfl, rfl⟩, Group.Get_load_failure gErr "x" "not found" rfl rfl⟩

/-- Witness for C3 at a concrete input. -/
theorem Group.Get_load_success_witness :
    (gMiss.mainCache.lru.getE "y" = none ∧ gMiss.getter "y" = Except.ok ⟨7, none⟩) ∧
    ((gMiss.Get "y").val = Except.ok ⟨7, none⟩ ∧
     (gMiss.Get "y").getterCalls = 1 ∧
     (gMiss.Get "y").g.mainCache.lru.getE "y" = some ⟨7, none⟩) :=
  ⟨⟨rfl, rfl⟩, Group.Get_load_success gMiss "y" ⟨7, none⟩ rfl rfl⟩

/-- Witness for C4 at a concrete input. -/
theorem Group.Get_cache_hit_witness :
    (gHit.mainCache.lru.getE "k" = some ⟨5, none⟩) ∧
    ((gHit.Get "k").val = Except.ok ⟨5, none⟩ ∧
     (gHit.Get "k").getterCalls = 0 ∧
     (gHit.Get "k").g.mainCache.nhit = gHit.mainCache.nhit + 1 ∧
     (gHit.Get "k").g.Stats.CacheHits = gHit.Stats.CacheHits + 1) :=
  ⟨rfl, Group.Get_cache_hit gHit "k" ⟨5, none⟩ rfl⟩

/-- Witness for C10 at a concrete input. -/
theorem Group.Get_hit_frame_witness :
    (gHit.mainCache.lru.getE "k" = some ⟨5, none⟩) ∧
    ((gHit.Get "k").g.mainCache.lru = gHit.mainCache.lru ∧
     (gHit.Get "k").g.mainCache.nevict = gHit.mainCache.nevict ∧
     (gHit.Get "k").g.mainCache.disposed = gHit.mainCache.disposed ∧
     (gHit.Get "k").g.mainCache.items = gHit.mainCache.items ∧
     (gHit.Get "k").g.name = gHit.name ∧
     (gHit.Get "k").g.getter = gHit.getter) :=
  ⟨rfl, Group.Get_hit_frame gHit "k" ⟨5, none⟩ rfl⟩

/-! ### Registry claims -/

/-- C6 counterexample: with the hook installed and an empty registry,
creating group "g1" invokes the hook exactly once, but at the moment of the
call the name "g1" is NOT yet registered (the source registers the group
only after the hook returns), refuting the claim that the group is already
registered under its name when the hook runs. -/
theorem NewGroup_hook_sees_unregistered :
    ((NewGroup ⟨[], true⟩ "g1" 10 getterZero).map
      (fun r => r.2.2.map (fun h => (lookupGroup "g1" h.registryAtCall).isSome)))
      = some [false] := rfl

/-- C6 (amended): creating a group under a fresh name allocates it with an
initialized empty cache of the given capacity and zero stats, invokes the
installed creation hook exactly once, synchronously, with the new group,
before `create` returns, and registers the group under its name only after
the hook has run — at hook time the name is still unregistered. -/
theorem NewGroup_creates_and_hooks (s : RegistryState) (name : String)
    (cacheNum : Nat) (getter : Getter)
    (hfresh : lookupGroup name s.groups = none) (hhook : s.hookInstalled = true) :
    ∃ g s2, NewGroup s name cacheNum getter = some (g, s2, [⟨g, s.groups⟩]) ∧
      g.name = name ∧ g.mainCache = cache.init cacheNum ∧ g.Stats = ⟨0, 0⟩ ∧
      lookupGroup name s2.groups = some g ∧
      lookupGroup name s.groups = none := by
  have h1 : NewGroup s name cacheNum getter =
      some (⟨name, getter, cache.init cacheNum, ⟨0, 0⟩⟩,
        { s with groups :=
            (name, (⟨name, getter, cache.init cacheNum, ⟨0, 0⟩⟩ : Group)) :: s.groups },
        [⟨⟨name, getter, cache.init cacheNum, ⟨0, 0⟩⟩, s.groups⟩]) := by
    unfold NewGroup
    rw [hfresh, hhook]
    rfl
  exact ⟨_, _, h1, rfl, rfl, rfl, by simp [lookupGroup], hfresh⟩

/-- Witness for the amended C6 at a concrete input. -/
theorem NewGroup_creates_and_hooks_witness :
    (lookupGroup "g1" (RegistryState.mk [] true).groups = none ∧
     (RegistryState.mk [] true).hookInstalled = true) ∧
    (∃ g s2, NewGroup ⟨[], true⟩ "g1" 10 getterZero = some (g, s2, [⟨g, []⟩]) ∧
      g.name = "g1" ∧ g.mainCache = cache.init 10 ∧ g.Stats = ⟨0, 0⟩ ∧
      lookupGroup "g1" s2.groups = some g ∧
      lookupGroup "g1" (RegistryState.mk [] true).groups = none) :=
  ⟨⟨rfl, rfl⟩, NewGroup_creates_and_hooks ⟨[], true⟩ "g1" 10 getterZero rfl rfl⟩

/-- C7: creating a group under an already-registered name aborts fatally
(modelled as `none`), registering a creation hook twice aborts fatally, and
creating groups under distinct fresh names succeeds with each group
independently retrievable by `GetGroup` afterwards. -/
theorem registration_fatal_and_distinct_ok :
    (∀ (s : RegistryState) (name : String) (cacheNum : Nat) (getter : Getter),
       (lookupGroup name s.groups).isSome = true →
       NewGroup s name cacheNum getter = none) ∧
    (∀ s : RegistryState, s.hookInstalled = true → RegisterNewGroupHook s = none) ∧
    (∀ (s : RegistryState) (n1 n2 : String) (c1 c2 : Nat) (f1 f2 : Getter),
       lookupGroup n1 s.groups = none → lookupGroup n2 s.groups = none → n1 ≠ n2 →
       ∃ g1 s1 e1 g2 s2 e2,
         NewGroup s n1 c1 f1 = some (g1, s1, e1) ∧
         NewGroup s1 n2 c2 f2 = some (g2, s2, e2) ∧
         GetGroup s2 n1 = some g1 ∧ GetGroup s2 n2 = some g2) := by
  refine ⟨?_, ?_, ?_⟩
  · intro s name cacheNum getter h
    unfold NewGroup
    rw [h]
    rfl
  · intro s h
    unfold RegisterNewGroupHook
    rw [h]
    rfl
  · intro s n1 n2 c1 c2 f1 f2 h1 h2 hne
    have hA : NewGroup s n1 c1 f1 =
        some (⟨n1, f1, cache.init c1, ⟨0, 0⟩⟩,
          { s with groups :=
              (n1, (⟨n1, f1, cache.init c1, ⟨0, 0⟩⟩ : Group)) :: s.groups },
          if s.hookInstalled then
            [⟨⟨n1, f1, cache.init c1, ⟨0, 0⟩⟩, s.groups⟩] else []) := by
      unfold NewGroup
      rw [h1]
      rfl
    have h2' : lookupGroup n2
        ((n1, (⟨n1, f1, cache.init c1, ⟨0, 0⟩⟩ : Group)) :: s.groups) = none := by
      simp [lookupGroup, hne, h2]
    have hB : NewGroup
        { s with groups :=
            (n1, (⟨n1, f1, cache.init c1, ⟨0, 0⟩⟩ : Group)) :: s.groups } n2 c2 f2 =
        some (⟨n2, f2, cache.init c2, ⟨0, 0⟩⟩,
          { s with groups :=
              (n2, (⟨n2, f2, cache.init c2, ⟨0, 0⟩⟩ : Group)) ::
              (n1, (⟨n1, f1, cache.init c1, ⟨0, 0⟩⟩ : Group)) :: s.groups },
          if s.hookInstalled then
            [⟨⟨n2, f2, cache.init c2, ⟨0, 0⟩⟩,
              (n1, (⟨n1, f1, cache.init c1, ⟨0, 0⟩⟩ : Group)) :: s.groups⟩] else []) := by
      unfold NewGroup
      rw [h2']
      rfl
    refine ⟨_, _, _, _, _, _, hA, hB, ?_, ?_⟩
    · unfold GetGroup
      simp [lookupGroup, hne, Ne.symm hne]
    · unfold GetGroup
      simp [lookupGroup]

/-- Witness for C7 at concrete inputs. -/
theorem registration_fatal_and_distinct_ok_witness :
    ((lookupGroup "a" (RegistryState.mk [("a", gErr)] false).groups).isSome = true ∧
     NewGroup ⟨[("a", gErr)], false⟩ "a" 1 getterZero = none) ∧
    ((RegistryState.mk [] true).hookInstalled = true ∧
     RegisterNewGroupHook ⟨[], true⟩ = none) ∧
    (∃ g1 s1 e1 g2 s2 e2,
       NewGroup ⟨[], false⟩ "a" 1 getterZero = some (g1, s1, e1) ∧
       NewGroup s1 "b" 1 getterZero = some (g2, s2, e2) ∧
       GetGroup s2 "a" = some g1 ∧ GetGroup s2 "b" = some g2) :=
  ⟨⟨rfl, registration_fatal_and_distinct_ok.1 ⟨[("a", gErr)], false⟩ "a" 1 getterZero rfl⟩,
   ⟨rfl, registration_fatal_and_distinct_ok.2.1 ⟨[], true⟩ rfl⟩,
   registration_fatal_and_distinct_ok.2.2 ⟨[], false⟩ "a" "b" 1 1 getterZero getterZero
     rfl rfl (by decide)⟩

/-! ### Counter invariants over sequences of `Group.Get` calls -/

theorem Get_counter_step (g : Group) (k : String) :
    (g.Get k).g.mainCache.nget = g.mainCache.nget + 1 ∧
    g.mainCache.nhit ≤ (g.Get k).g.mainCache.nhit ∧
    (g.Get k).g.mainCache.nhit ≤ g.mainCache.nhit + 1 ∧
    g.mainCache.nevict ≤ (g.Get k).g.mainCache.nevict := by
  cases h : g.mainCache.lru.getE k with
  | some v =>
      rw [Get_hit_eq g k v h]
      exact ⟨rfl, Nat.le_succ _, le_refl _, le_refl _⟩
  | none =>
      cases hg : g.getter k with
      | ok v =>
          rw [Get_missOk_eq g k v h hg]
          refine ⟨?_, ?_, ?_, ?_⟩
          · show (cache.add _ k v).nget = _
            rw [add_nget]
          · show _ ≤ (cache.add _ k v).nhit
            rw [add_nhit]
          · show (cache.add _ k v).nhit ≤ _
            rw [add_nhit]
            exact Nat.le_succ _
          · show _ ≤ (cache.add _ k v).nevict
            rw [add_nevict]
            exact Nat.le_add_right _ _
      | error e =>
          rw [Get_missErr_eq g k e h hg]
          exact ⟨rfl, le_refl _, Nat.le_succ _, le_refl _⟩

theorem runGets_counters : ∀ (keys : List String) (g : Group),
    g.mainCache.nget ≤ (g.runGets keys).mainCache.nget ∧
    g.mainCache.nhit ≤ (g.runGets keys).mainCache.nhit ∧
    g.mainCache.nevict ≤ (g.runGets keys).mainCache.nevict ∧
    (g.mainCache.nhit ≤ g.mainCache.nget →
      (g.runGets keys).mainCache.nhit ≤ (g.runGets keys).mainCache.nget)
  | [], g => ⟨le_refl _, le_refl _, le_refl _, fun h => h⟩
  | k :: ks, g => by
      have hstep := Get_counter_step g k
      have ih := runGets_counters ks ((g.Get k).g)
      have hrw : g.runGets (k :: ks) = ((g.Get k).g).runGets ks := rfl
      rw [hrw]
      obtain ⟨s1, s2, s3, s4⟩ := hstep
      obtain ⟨i1, i2, i3, i4⟩ := ih
      refine ⟨?_, ?_, ?_, ?_⟩
      · omega
      · omega
      · omega
      · intro h
        exact i4 (by omega)

/-- C5: counters are consistent and monotone — after any sequence of `Get`
calls on a group whose wrapper satisfies `hits ≤ gets`, the snapshot returned
by `CacheStats` satisfies `Hits ≤ Gets`, and extending the sequence never
decreases the `Gets`, `Hits` or `Evictions` counters (they are never
reset). -/
theorem CacheStats_hits_le_gets_monotone (g : Group) (ks more : List String)
    (h : g.mainCache.nhit ≤ g.mainCache.nget) :
    (g.runGets ks).CacheStats.Hits ≤ (g.runGets ks).CacheStats.Gets ∧
    (g.runGets ks).CacheStats.Gets ≤ (g.runGets (ks ++ more)).CacheStats.Gets ∧
    (g.runGets ks).CacheStats.Hits ≤ (g.runGets (ks ++ more)).CacheStats.Hits ∧
    (g.runGets ks).CacheStats.Evictions ≤ (g.runGets (ks ++ more)).CacheStats.Evictions := by
  have happ : g.runGets (ks ++ more) = (g.runGets ks).runGets more := by
    simp [Group.runGets, List.foldl_append]
  have h1 := runGets_counters ks g
  have h2 := runGets_counters more (g.runGets ks)
  rw [happ]
  simp only [Group.CacheStats, cache.stats]
  exact ⟨h1.2.2.2 h, h2.1, h2.2.1, h2.2.2.1⟩

/-- Witness for C5 at a concrete input. -/
theorem CacheStats_hits_le_gets_monotone_witness :
    (gErr.mainCache.nhit ≤ gErr.mainCache.nget) ∧
    ((gErr.runGets ["x"]).CacheStats.Hits ≤ (gErr.runGets ["x"]).CacheStats.Gets ∧
     (gErr.runGets ["x"]).CacheStats.Gets ≤ (gErr.runGets (["x"] ++ ["x", "y"])).CacheStats.Gets ∧
     (gErr.runGets ["x"]).CacheStats.Hits ≤ (gErr.runGets (["x"] ++ ["x", "y"])).CacheStats.Hits ∧
     (gErr.runGets ["x"]).CacheStats.Evictions ≤
       (gErr.runGets (["x"] ++ ["x", "y"])).CacheStats.Evictions) :=
  ⟨Nat.le_refl 0, CacheStats_hits_le_gets_monotone gErr ["x"] ["x", "y"] (Nat.le_refl 0)⟩

theorem Get_parity_step (g : Group) (k : String)
    (h1 : g.Stats.Gets = g.mainCache.nget)
    (h2 : g.Stats.CacheHits = g.mainCache.nhit) :
    (g.Get k).g.Stats.Gets = (g.Get k).g.mainCache.nget ∧
    (g.Get k).g.Stats.CacheHits = (g.Get k).g.mainCache.nhit := by
  cases h : g.mainCache.lru.getE k with
  | some v =>
      rw [Get_hit_eq g k v h]
      exact ⟨by simp [h1], by simp [h2]⟩
  | none =>
      cases hg : g.getter k with
      | ok v =>
          rw [Get_missOk_eq g k v h hg]
          constructor
          · show g.Stats.Gets + 1 = (cache.add _ k v).nget
            rw [add_nget, h1]
          · show g.Stats.CacheHits = (cache.add _ k v).nhit
            rw [add_nhit, h2]
      | error e =>
          rw [Get_missErr_eq g k e h hg]
          exact ⟨by simp [h1], by simp [h2]⟩

theorem runGets_parity : ∀ (keys : List String) (g : Group),
    g.Stats.Gets = g.mainCache.nget → g.Stats.CacheHits = g.mainCache.nhit →
    (g.runGets keys).Stats.Gets = (g.runGets keys).mainCache.nget ∧
    (g.runGets keys).Stats.CacheHits = (g.runGets keys).mainCache.nhit
  | [], g, h1, h2 => ⟨h1, h2⟩
  | k :: ks, g, h1, h2 => by
      have hstep := Get_parity_step g k h1 h2
      have hrw : g.runGets (k :: ks) = ((g.Get k).g).runGets ks := rfl
      rw [hrw]
      exact runGets_parity ks ((g.Get k).g) hstep.1 hstep.2

/-- C9: both counter paths are updated on every `Get` — after any sequence of
sequential `Get` calls on a group whose counters start in parity, the
group-level `Stats.Gets` equals the wrapper's `gets` counter reported by
`CacheStats`, and `Stats.CacheHits` equals the reported `hits` counter. -/
theorem Stats_CacheStats_parity (g : Group) (ks : List String)
    (h1 : g.Stats.Gets = g.mainCache.nget)
    (h2 : g.Stats.CacheHits = g.mainCache.nhit) :
    (g.runGets ks).Stats.Gets = (g.runGets ks).CacheStats.Gets ∧
    (g.runGets ks).Stats.CacheHits = (g.runGets ks).CacheStats.Hits := by
  simp only [Group.CacheStats, cache.stats]
  exact runGets_parity ks g h1 h2

/-- Witness for C9 at a concrete input. -/
theorem Stats_CacheStats_parity_witness :
    (gMiss.Stats.Gets = gMiss.mainCache.nget ∧
     gMiss.Stats.CacheHits = gMiss.mainCache.nhit) ∧
    ((gMiss.runGets ["y", "y", "z"]).Stats.Gets =
       (gMiss.runGets ["y", "y", "z"]).CacheStats.Gets ∧
     (gMiss.runGets ["y", "y", "z"]).Stats.CacheHits =
       (gMiss.runGets ["y", "y", "z"]).CacheStats.Hits) :=
  ⟨⟨rfl, rfl⟩, Stats_CacheStats_parity gMiss ["y", "y", "z"] rfl rfl⟩

/-! ### Lemmas about `lookupKey`, `removeKey`, `lastEntry`, `dropLastE` -/

theorem lookupKey_eq_none_iff (k : String) : ∀ es : List (String × Value),
    lookupKey k es = none ↔ k ∉ es.map Prod.fst
  | [] => by simp [lookupKey]
  | (k', v) :: es => by
      by_cases h : k' = k
      · subst h
        simp [lookupKey]
      · simp [lookupKey, h, lookupKey_eq_none_iff k es, Ne.symm h]

theorem lookupKey_isSome_congr (k : String) :
    ∀ (e1 e2 : List (String × Value)), e1.map Prod.fst = e2.map Prod.fst →
    (lookupKey k e1).isSome = (lookupKey k e2).isSome := by
  intro e1 e2 h
  cases h1 : lookupKey k e1 with
  | none =>
      have : k ∉ e2.map Prod.fst := by
        rw [← h]
        exact (lookupKey_eq_none_iff k e1).mp h1
      rw [(lookupKey_eq_none_iff k e2).mpr this]
  | some v =>
      cases h2 : lookupKey k e2 with
      | none =>
          have : k ∉ e1.map Prod.fst := by
            rw [h]
            exact (lookupKey_eq_none_iff k e2).mp h2
          rw [(lookupKey_eq_none_iff k e1).mpr this] at h1
          exact absurd h1 (by simp)
      | some w => rfl

theorem map_fst_removeKey (k : String) : ∀ es : List (String × Value),
    (removeKey k es).map Prod.fst = (es.map Prod.fst).filter (fun s => s != k)
  | [] => rfl
  | (k', v) :: es => by
      by_cases h : k' = k
      · rw [h]
        simp [removeKey, map_fst_removeKey k es]
      · simp [removeKey, h, map_fst_removeKey k es]

theorem map_dropLastE {α β : Type} (f : α → β) : ∀ l : List α,
    (dropLastE l).map f = dropLastE (l.map f)
  | [] => rfl
  | [_] => rfl
  | a :: b :: l => by
      have ih := map_dropLastE f (b :: l)
      simp only [dropLastE, List.map_cons] at ih ⊢
      rw [ih]

theorem length_dropLastE {α : Type} : ∀ l : List α,
    (dropLastE l).length = l.length - 1
  | [] => rfl
  | [_] => rfl
  | a :: b :: l => by
      have ih := length_dropLastE (b :: l)
      simp only [dropLastE, List.length_cons] at ih ⊢
      omega

theorem lastEntry_isSome {α : Type} (a : α) : ∀ l : List α,
    (lastEntry (a :: l)).isSome = true
  | [] => rfl
  | b :: l => lastEntry_isSome b l

theorem lastEntry_mem {α : Type} : ∀ (l : List α) (z : α),
    lastEntry l = some z → z ∈ l
  | [], _, h => by simp [lastEntry] at h
  | [e], z, h => by
      simp [lastEntry] at h
      simp [h]
  | a :: b :: l, z, h => by
      have : lastEntry (b :: l) = some z := h
      exact List.mem_cons_of_mem a (lastEntry_mem (b :: l) z this)

theorem lastEntry_toList_length {α : Type} (a : α) (l : List α) :
    ((lastEntry (a :: l)).toList).length = 1 := by
  have hs := lastEntry_isSome a l
  cases h : lastEntry (a :: l) with
  | none => rw [h] at hs; simp at hs
  | some z => simp

theorem last_key_not_in_dropLastE : ∀ es : List (String × Value),
    (es.map Prod.fst).Nodup → ∀ z, lastEntry es = some z →
    lookupKey z.1 (dropLastE es) = none
  | [], _, z, h => by simp [lastEntry] at h
  | [e], _, z, h => rfl
  | e :: f :: es, hnd, z, h => by
      have hz : lastEntry (f :: es) = some z := h
      have hz' : z ∈ f :: es := lastEntry_mem (f :: es) z hz
      have hkey : z.1 ∈ (f :: es).map Prod.fst := List.mem_map_of_mem Prod.fst hz'
      rw [List.map_cons, List.nodup_cons] at hnd
      have hne : e.1 ≠ z.1 := fun heq => hnd.1 (heq ▸ hkey)
      have ih := last_key_not_in_dropLastE (f :: es) hnd.2 z hz
      simp only [dropLastE, lookupKey, if_neg hne]
      exact ih

theorem get_snd_nevict (c : cache) (k : String) :
    (cache.get c k).2.nevict = c.nevict := by
  unfold cache.get
  cases h : LruCache.getE c.lru k <;> rfl

theorem get_snd_disposed (c : cache) (k : String) :
    (cache.get c k).2.disposed = c.disposed := by
  unfold cache.get
  cases h : LruCache.getE c.lru k <;> rfl

theorem addE_fresh_noevict (l : LruCache) (k : String) (v : Value)
    (h : lookupKey k l.entries = none)
    (hlen : ¬(l.maxEntries ≠ 0 ∧ l.entries.length + 1 > l.maxEntries)) :
    l.addE k v = ({ l with entries := (k, v) :: l.entries }, []) := by
  unfold LruCache.addE
  rw [h, if_neg hlen]

theorem addE_fresh_evict (l : LruCache) (k : String) (v : Value)
    (h : lookupKey k l.entries = none)
    (hlen : l.maxEntries ≠ 0 ∧ l.entries.length + 1 > l.maxEntries) :
    l.addE k v = ({ l with entries := dropLastE ((k, v) :: l.entries) },
      (lastEntry ((k, v) :: l.entries)).toList) := by
  unfold LruCache.addE
  rw [h, if_pos hlen]

theorem add_fresh_noevict (c : cache) (k : String) (v : Value)
    (h : lookupKey k c.lru.entries = none)
    (hlen : ¬(c.lru.maxEntries ≠ 0 ∧ c.lru.entries.length + 1 > c.lru.maxEntries)) :
    cache.add c k v =
      { c with lru := { c.lru with entries := (k, v) :: c.lru.entries } } := by
  unfold cache.add
  rw [addE_fresh_noevict c.lru k v h hlen]
  rfl

/-! ### The eviction counter always equals the number of Dispose invocations -/

theorem runOps_nevict_eq_disposed : ∀ (ops : List COp) (c : cache),
    c.nevict = c.disposed.length →
    (cache.runOps c ops).nevict = (cache.runOps c ops).disposed.length
  | [], _, h => h
  | COp.add k v :: ops, c, h => by
      apply runOps_nevict_eq_disposed ops
      rw [add_nevict, add_disposed, h, List.length_append]
  | COp.get k :: ops, c, h => by
      apply runOps_nevict_eq_disposed ops
      rw [get_snd_nevict, get_snd_disposed, h]

/-! ### Filling a fresh cache one over capacity evicts exactly one entry -/

theorem insertAll_overflow : ∀ (kvs : List (String × Value)) (c : cache),
    (kvs.map Prod.fst).Nodup →
    (∀ p ∈ kvs, lookupKey p.1 c.lru.entries = none) →
    (c.lru.entries.map Prod.fst).Nodup →
    c.lru.entries.length ≤ c.lru.maxEntries →
    c.lru.entries.length + kvs.length = c.lru.maxEntries + 1 →
    c.nevict = 0 → c.disposed = [] → 0 < c.lru.maxEntries →
    (cache.insertAll c kvs).lru.entries.length = c.lru.maxEntries ∧
    (cache.insertAll c kvs).nevict = 1 ∧
    (cache.insertAll c kvs).disposed.length = 1 ∧
    ∀ p ∈ (cache.insertAll c kvs).disposed,
      lookupKey p.1 (cache.insertAll c kvs).lru.entries = none
  | [], c, _, _, _, hle, hsum, _, _, _ => by
      exfalso
      simp at hsum
      omega
  | (k, v) :: rest, c, hnd, hfresh, hcnd, hle, hsum, hnev, hdisp, hpos => by
      have hk : lookupKey k c.lru.entries = none :=
        hfresh (k, v) (List.mem_cons_self _ _)
      have hknotin : k ∉ c.lru.entries.map Prod.fst :=
        (lookupKey_eq_none_iff k c.lru.entries).mp hk
      rw [List.map_cons, List.nodup_cons] at hnd
      cases rest with
      | nil =>
          have hlen : c.lru.entries.length = c.lru.maxEntries := by
            simp at hsum
            omega
          have hcond : c.lru.maxEntries ≠ 0 ∧
              c.lru.entries.length + 1 > c.lru.maxEntries := ⟨by omega, by omega⟩
          have hadd := addE_fresh_evict c.lru k v hk hcond
          have hs := lastEntry_isSome (k, v) c.lru.entries
          cases hz : lastEntry ((k, v) :: c.lru.entries) with
          | none => rw [hz] at hs; simp at hs
          | some z =>
              obtain ⟨zk, zv⟩ := z
              have hres : cache.insertAll c [(k, v)] =
                  { c with
                      lru := { c.lru with entries := dropLastE ((k, v) :: c.lru.entries) },
                      nevict := c.nevict + 1,
                      disposed := c.disposed ++ [(zk, zv)] } := by
                show cache.add c k v = _
                unfold cache.add
                rw [hadd, hz]
                simp [cache.onEvicted]
              rw [hres]
              have hnodup2 : (((k, v) :: c.lru.entries).map Prod.fst).Nodup := by
                rw [List.map_cons, List.nodup_cons]
                exact ⟨hknotin, hcnd⟩
              refine ⟨?_, ?_, ?_, ?_⟩
              · show (dropLastE ((k, v) :: c.lru.entries)).length = c.lru.maxEntries
                rw [length_dropLastE]
                simp
                omega
              · show c.nevict + 1 = 1
                omega
              · show (c.disposed ++ [(zk, zv)]).length = 1
                rw [hdisp]
                rfl
              · intro p hp
                show lookupKey p.1 (dropLastE ((k, v) :: c.lru.entries)) = none
                rw [hdisp] at hp
                simp at hp
                rw [hp]
                exact last_key_not_in_dropLastE _ hnodup2 (zk, zv) hz
      | cons r rs =>
          have hnoev : ¬(c.lru.maxEntries ≠ 0 ∧
              c.lru.entries.length + 1 > c.lru.maxEntries) := by
            simp at hsum
            omega
          have haddc := add_fresh_noevict c k v hk hnoev
          have hrw : cache.insertAll c ((k, v) :: r :: rs)
              = cache.insertAll (cache.add c k v) (r :: rs) := rfl
          rw [hrw, haddc]
          have ih := insertAll_overflow (r :: rs)
            { c with lru := { c.lru with entries := (k, v) :: c.lru.entries } }
            hnd.2
            (by
              intro p hp
              have hpk : p.1 ∈ (r :: rs).map Prod.fst := List.mem_map_of_mem Prod.fst hp
              have hne : k ≠ p.1 := fun heq => hnd.1 (heq ▸ hpk)
              show lookupKey p.1 ((k, v) :: c.lru.entries) = none
              simp only [lookupKey, if_neg hne]
              exact hfresh p (List.mem_cons_of_mem _ hp))
            (by
              show ((k :: c.lru.entries.map Prod.fst)).Nodup
              rw [List.nodup_cons]
              exact ⟨hknotin, hcnd⟩)
            (by
              show ((k, v) :: c.lru.entries).length ≤ c.lru.maxEntries
              simp at hsum ⊢
              omega)
            (by
              show ((k, v) :: c.lru.entries).length + (r :: rs).length
                  = c.lru.maxEntries + 1
              simp at hsum ⊢
              omega)
            hnev hdisp hpos
          exact ih

/-- C1: for every entry evicted from the bounded cache, the eviction hook
invokes that entry's Dispose exactly once and the evictions counter equals
the count of such invocations (along any operation sequence, `nevict` equals
the length of the Dispose trace); and for a cache of capacity N > 0,
inserting N+1 distinct keys leaves exactly N resident entries, exactly one
eviction, exactly one Dispose invocation, and the disposed entry is no
longer resident. -/
theorem eviction_dispose_exactly_once :
    (∀ (ops : List COp) (c : cache), c.nevict = c.disposed.length →
       (cache.runOps c ops).nevict = (cache.runOps c ops).disposed.length) ∧
    (∀ (N : Nat) (kvs : List (String × Value)), 0 < N →
       (kvs.map Prod.fst).Nodup → kvs.length = N + 1 →
       (cache.insertAll (cache.init N) kvs).items = N ∧
       (cache.insertAll (cache.init N) kvs).nevict = 1 ∧
       (cache.insertAll (cache.init N) kvs).disposed.length = 1 ∧
       ((cache.insertAll (cache.init N) kvs).disposed.all
          fun p => ((cache.insertAll (cache.init N) kvs).lru.getE p.1).isNone) = true) := by
  constructor
  · exact runOps_nevict_eq_disposed
  · intro N kvs hpos hnd hlen
    have h := insertAll_overflow kvs (cache.init N) hnd
      (by intro p _; rfl)
      (by simp [cache.init, LruCache.new])
      (by simp [cache.init, LruCache.new])
      (by simp [cache.init, LruCache.new, hlen])
      rfl rfl
      (by simpa [cache.init, LruCache.new] using hpos)
    obtain ⟨h1, h2, h3, h4⟩ := h
    refine ⟨?_, h2, h3, ?_⟩
    · show (cache.insertAll (cache.init N) kvs).lru.entries.length = N
      simpa [cache.init, LruCache.new] using h1
    · rw [List.all_eq_true]
      intro p hp
      have := h4 p hp
      simp [LruCache.getE, this]

/-- Witness for C1 at concrete inputs. -/
theorem eviction_dispose_exactly_once_witness :
    ((cache.init 2).nevict = (cache.init 2).disposed.length ∧
     (cache.runOps (cache.init 2) ops0).nevict
       = (cache.runOps (cache.init 2) ops0).disposed.length) ∧
    ((0 < 2 ∧ (kvs0.map Prod.fst).Nodup ∧ kvs0.length = 2 + 1) ∧
     ((cache.insertAll (cache.init 2) kvs0).items = 2 ∧
      (cache.insertAll (cache.init 2) kvs0).nevict = 1 ∧
      (cache.insertAll (cache.init 2) kvs0).disposed.length = 1 ∧
      ((cache.insertAll (cache.init 2) kvs0).disposed.all
         fun p => ((cache.insertAll (cache.init 2) kvs0).lru.getE p.1).isNone) = true)) :=
  ⟨⟨rfl, eviction_dispose_exactly_once.1 ops0 (cache.init 2) rfl⟩,
   ⟨⟨by decide, by decide, by decide⟩,
    eviction_dispose_exactly_once.2 2 kvs0 (by decide) (by decide) (by decide)⟩⟩

/-! ### Eviction bookkeeping is independent of the values and their Dispose outcomes -/

theorem addE_keys_congr (l1 l2 : LruCache) (k : String) (v1 v2 : Value)
    (hmax : l1.maxEntries = l2.maxEntries)
    (hkeys : l1.entries.map Prod.fst = l2.entries.map Prod.fst) :
    ((l1.addE k v1).2).length = ((l2.addE k v2).2).length ∧
    ((l1.addE k v1).1).entries.map Prod.fst
      = ((l2.addE k v2).1).entries.map Prod.fst := by
  have hlen : l1.entries.length = l2.entries.length := by
    have := congrArg List.length hkeys
    simpa using this
  have hsome := lookupKey_isSome_congr k l1.entries l2.entries hkeys
  cases h1 : lookupKey k l1.entries with
  | some o1 =>
      rw [h1] at hsome
      cases h2 : lookupKey k l2.entries with
      | none => rw [h2] at hsome; simp at hsome
      | some o2 =>
          unfold LruCache.addE
          rw [h1, h2]
          refine ⟨rfl, ?_⟩
          simp only [List.map_cons, map_fst_removeKey]
          rw [hkeys]
  | none =>
      rw [h1] at hsome
      cases h2 : lookupKey k l2.entries with
      | some o2 => rw [h2] at hsome; simp at hsome
      | none =>
          unfold LruCache.addE
          rw [h1, h2]
          by_cases hc : l1.maxEntries ≠ 0 ∧ l1.entries.length + 1 > l1.maxEntries
          · rw [if_pos hc, if_pos (by rw [← hmax, ← hlen]; exact hc)]
            refine ⟨?_, ?_⟩
            · rw [lastEntry_toList_length, lastEntry_toList_length]
            · show (dropLastE ((k, v1) :: l1.entries)).map Prod.fst
                  = (dropLastE ((k, v2) :: l2.entries)).map Prod.fst
              rw [map_dropLastE, map_dropLastE]
              simp only [List.map_cons]
              rw [hkeys]
          · rw [if_neg hc, if_neg (by rw [← hmax, ← hlen]; exact hc)]
            refine ⟨rfl, ?_⟩
            simp only [List.map_cons]
            rw [hkeys]

/-- C8: a failing Dispose during eviction is not propagated to the caller of
`add` and does not disturb the bookkeeping: `cache.add` is total (it has no
error channel — the hook discards the Dispose outcome), and its counter
updates and resulting resident keys do not depend on the stored values or
their Dispose outcomes: two caches agreeing on capacity, resident keys and
the evictions counter evolve under `add` to the same evictions counter and
the same resident keys, with the same number of Dispose invocations — the
evictions counter is incremented exactly as if every Dispose had
succeeded. -/
theorem dispose_failure_not_propagated (c1 c2 : cache) (k : String) (v1 v2 : Value)
    (hmax : c1.lru.maxEntries = c2.lru.maxEntries)
    (hkeys : c1.lru.entries.map Prod.fst = c2.lru.entries.map Prod.fst)
    (hnev : c1.nevict = c2.nevict) :
    (cache.add c1 k v1).nevict = (cache.add c2 k v2).nevict ∧
    (cache.add c1 k v1).lru.entries.map Prod.fst
      = (cache.add c2 k v2).lru.entries.map Prod.fst ∧
    (cache.add c1 k v1).disposed.length - c1.disposed.length
      = (cache.add c2 k v2).disposed.length - c2.disposed.length ∧
    (cache.add c1 k v1).nevict
      = c1.nevict + ((cache.add c1 k v1).disposed.length - c1.disposed.length) := by
  obtain ⟨hlen, hmap⟩ := addE_keys_congr c1.lru c2.lru k v1 v2 hmax hkeys
  refine ⟨?_, ?_, ?_, ?_⟩
  · rw [add_nevict, add_nevict, hlen, hnev]
  · rw [add_lru, add_lru]
    exact hmap
  · rw [add_disposed, add_disposed, List.length_append, List.length_append, hlen]
    omega
  · rw [add_nevict, add_disposed, List.length_append]
    omega

/-- Witness for C8 at a concrete input (the insert evicts "a"; in `cBoom`
its Dispose fails, in `cFine` it succeeds). -/
theorem dispose_failure_not_propagated_witness :
    (cBoom.lru.maxEntries = cFine.lru.maxEntries ∧
     cBoom.lru.entries.map Prod.fst = cFine.lru.entries.map Prod.fst ∧
     cBoom.nevict = cFine.nevict) ∧
    ((cache.add cBoom "b" ⟨2, none⟩).nevict = (cache.add cFine "b" ⟨2, none⟩).nevict ∧
     (cache.add cBoom "b" ⟨2, none⟩).lru.entries.map Prod.fst
       = (cache.add cFine "b" ⟨2, none⟩).lru.entries.map Prod.fst ∧
     (cache.add cBoom "b" ⟨2, none⟩).disposed.length - cBoom.disposed.length
       = (cache.add cFine "b" ⟨2, none⟩).disposed.length - cFine.disposed.length ∧
     (cache.add cBoom "b" ⟨2, none⟩).nevict
       = cBoom.nevict + ((cache.add cBoom "b" ⟨2, none⟩).disposed.length
           - cBoom.disposed.length)) :=
  ⟨⟨rfl, rfl, rfl⟩,
   dispose_failure_not_propagated cBoom cFine "b" ⟨2, none⟩ ⟨2, none⟩ rfl rfl rfl⟩

example : (cache.init 2).items = 0 := rfl

example :
    ((cache.insertAll (cache.init 2)
      [("a", ⟨1, none⟩), ("b", ⟨2, none⟩), ("c", ⟨3, none⟩)]).items = 2) := by decide

example :
    ((cache.insertAll (cache.init 2)
      [("a", ⟨1, none⟩), ("b", ⟨2, none⟩), ("c", ⟨3, none⟩)]).nevict = 1) := by decide

example :
    ((cache.insertAll (cache.init 2)
      [("a", ⟨1, none⟩), ("b", ⟨2, none⟩), ("c", ⟨3, none⟩)]).disposed
       = [("a", ⟨1, none⟩)]) := by decide

end Objcache
